import Mathlib

/-!
Verification of the file-alignment / lazy-loading pipeline and the task
dispatch harness of `src/compression/dna/codec/benchmarks.py`.

Paths are modelled as lists of characters (`PyStr`), mirroring Python
strings.  Fallible Python code (assertions, raised exceptions) is modelled
with `Except String`.  The filesystem reads performed by `np.load`,
`PyntCloud.from_file` and `glob` are modelled as opaque functions supplied
as parameters (`FS`, `listing`).
-/

set_option autoImplicit false

abbrev PyStr := List Char

/-- Substring after the last occurrence of `c`; the whole string when `c`
does not occur (Python `s.split(c)[-1]`). -/
def afterLastSep (c : Char) (s : PyStr) : PyStr :=
  (s.reverse.takeWhile (fun a => a ≠ c)).reverse

/-- Substring before the last occurrence of `c`, the separator excluded;
empty when `c` does not occur (Python `c.join(s.split(c)[:-1])`). -/
def beforeLastSep (c : Char) (s : PyStr) : PyStr :=
  ((s.reverse.dropWhile (fun a => a ≠ c)).drop 1).reverse

/-- Modelled from the spec: `extract_path` of `utils` is not under `src/`;
spec 4.1 says it returns everything before the last path separator. -/
def extract_path (s : PyStr) : PyStr := beforeLastSep '/' s

/-- Modelled from the spec: `extract_ext` of `utils` is not under `src/`;
spec 4.1 says it returns the substring after the final dot. -/
def extract_ext (s : PyStr) : PyStr := afterLastSep '.' s

/-- Modelled from the spec: `extract_name` of `utils` is not under `src/`;
spec 4.1 says it returns the filename without directory or extension. -/
def extract_name (s : PyStr) : PyStr :=
  if '.' ∈ afterLastSep '/' s then beforeLastSep '.' (afterLastSep '/' s)
  else afterLastSep '/' s

/-- The deduplicated list of names common to every listing
(`common_names = set.intersection(*names)` at benchmarks.py:40-41), kept in
first-listing order: Python iterates one concrete set object, so all output
lists share a single enumeration order of the intersection. -/
def commonNames (d0 : List PyStr) (rest : List (List PyStr)) : List PyStr :=
  (d0.map extract_name).dedup.filter
    (fun n => rest.all (fun d => decide (n ∈ d.map extract_name)))

/-- Path reconstruction of benchmarks.py:43, the f-string joining prefix,
common name and extension, prefix and extension taken from the first file
of the listing `d`. -/
def reconPath (d : List PyStr) (n : PyStr) : PyStr :=
  extract_path (d.headD []) ++ '/' :: (n ++ '.' :: extract_ext (d.headD []))

/-- `align_files(*directories)` (benchmarks.py:32-43).  The assert on line
36 fires when some listing is empty; with zero listings the assert passes
but `set.intersection(*[])` raises a `TypeError`. -/
def align_files (dirs : List (List PyStr)) : Except String (List (List PyStr)) :=
  if dirs.all (fun d => !d.isEmpty) then
    match dirs with
    | [] => .error "TypeError: descriptor intersection of set object needs an argument"
    | d0 :: rest =>
      .ok ((d0 :: rest).map (fun d => (commonNames d0 rest).map (reconPath d)))
  else .error "AssertionError: Need at least 1 element in each directory"

/-- Intersection of the `extract_name` images of all listings, as a finite
set (the value of `set.intersection(*names)`). -/
def interNames (d0 : List PyStr) (rest : List (List PyStr)) : Finset PyStr :=
  rest.foldl (fun acc d => acc ∩ (d.map extract_name).toFinset)
    (d0.map extract_name).toFinset

/-- In-memory decoded record: a numeric multi-dimensional array, modelled
as nested lists of integer scalars (numpy arrays and the points table of a
point cloud at the granularity the pipeline observes). -/
inductive NDArray where
  | scalar (v : Int)
  | arr (xs : List NDArray)

mutual

/-- `np.squeeze`: remove every length-one nesting level (singleton axis). -/
def squeeze : NDArray → NDArray
  | .scalar v => .scalar v
  | .arr [x] => squeeze x
  | .arr xs => .arr (squeezeList xs)

def squeezeList : List NDArray → List NDArray
  | [] => []
  | x :: xs => squeeze x :: squeezeList xs

end

mutual

/-- Row-major list of the scalar values of an array. -/
def flatten : NDArray → List Int
  | .scalar v => [v]
  | .arr xs => flattenList xs

def flattenList : List NDArray → List Int
  | [] => []
  | x :: xs => flatten x ++ flattenList xs

end

/-- Iterating a numpy array yields its first-axis rows; iterating a 0-d
array yields nothing (numpy raises on it, which downstream surfaces as an
unpack failure). -/
def rows : NDArray → List NDArray
  | .scalar _ => []
  | .arr xs => xs

/-- Opaque filesystem contents: what `np.load` and
`PyntCloud.from_file(...).points` decode for a given path. -/
structure FS where
  npyData : PyStr → NDArray
  plyPoints : PyStr → NDArray

/-- `load_file(fname)` (benchmarks.py:45-57).  The `pkl` branch executes
`pickle.load`, but the module never imports `pickle`, so that branch
raises `NameError` at run time. -/
def load_file (fs : FS) (fname : PyStr) : Except String NDArray :=
  if extract_ext fname = "npy".toList then .ok (fs.npyData fname)
  else if extract_ext fname = "pkl".toList then
    .error "NameError: name pickle is not defined"
  else if extract_ext fname = "ply".toList then .ok (fs.plyPoints fname)
  else .error ("Unknown extension " ++ String.mk (extract_ext fname))

/-- Left-to-right effectful map over `Except`, stopping at the first
failure: the evaluation order of a Python list comprehension whose body
may raise. -/
def mapExcept {α β ε : Type} (f : α → Except ε β) : List α → Except ε (List β)
  | [] => .ok []
  | a :: l =>
    match f a, mapExcept f l with
    | .ok b, .ok bs => .ok (b :: bs)
    | .error e, _ => .error e
    | .ok _, .error e => .error e

/-- Resolved configuration namespace: the `io` sub-mapping as an ordered
label-to-directory association (`args.io.items()`), and the `task` string. -/
structure Config where
  io : List (PyStr × PyStr)
  task : String

/-- `lazy_loader(files, args)` (benchmarks.py:59-64), fully materialized:
the generator yields `np.squeeze([load_file(f) for f in slice_files])` for
each group of aligned paths. -/
def lazy_loader (fs : FS) (groups : List (List PyStr)) (args : Config) :
    Except String (List NDArray) :=
  mapExcept
    (fun g => Except.map (fun recs => squeeze (NDArray.arr recs))
      (mapExcept (load_file fs) g))
    groups

/-- `loader(files, args)` (benchmarks.py:66-70): eager per-path loading. -/
def loader (fs : FS) (files : List PyStr) (args : Config) :
    Except String (List NDArray) :=
  mapExcept (load_file fs) files

/-- Length of Python `zip(*ls)`: the least length among the lists, zero
when no list is given. -/
def pyMinLen {α : Type} (ls : List (List α)) : Nat :=
  match ls with
  | [] => 0
  | l0 :: rest => rest.foldl (fun acc l => min acc l.length) l0.length

/-- Python `list(zip(*ls))`: position-wise groups, truncated at the
shortest list. -/
def zipStar (ls : List (List PyStr)) : List (List PyStr) :=
  (List.range (pyMinLen ls)).map (fun k => ls.map (fun l => l.getD k []))

/-- Listings selected by `load_io_files`: one glob result of the directory
per `io` role whose label is not excepted (benchmarks.py:76). -/
def selectedListings (listing : PyStr → List PyStr) (args : Config)
    (exception : List PyStr) : List (List PyStr) :=
  (args.io.filter (fun nd => !(decide (nd.1 ∈ exception)))).map
    (fun nd => listing nd.2)

/-- `load_io_files(args, exception)` (benchmarks.py:72-78): align the
selected listings, then hand the zipped groups (or the `(-1, 1)`-reshaped
groups when a single role remains) to the lazy loader. -/
def load_io_files (fs : FS) (listing : PyStr → List PyStr) (args : Config)
    (exception : List PyStr) : Except String (List NDArray) :=
  match align_files (selectedListings listing args exception) with
  | .error e => .error e
  | .ok files =>
    lazy_loader fs
      (if files.length > 1 then zipStar files else files.flatten.map (fun p => [p]))
      args

/-- `np.max` over the flattened values (none on an empty collection, where
numpy raises). -/
def maxList : List Int → Option Int
  | [] => none
  | a :: r => some (r.foldl max a)

/-- `np.min` over the flattened values. -/
def minList : List Int → Option Int
  | [] => none
  | a :: r => some (r.foldl min a)

/-- The `y` / `y_hat` unpacking step of `evaluate_y_reconstruction`
(benchmarks.py:142-143): load_io_files with the x and x_hat roles excepted,
followed by the tuple unpack of `list(zip(*files))`, flattened to the
scalar streams `np.array(y)` and `np.array(y_hat)` contribute.  The tuple
unpack succeeds exactly when `zip(*files)` has length two, i.e. when the
least row count among the loaded group arrays is two. -/
def yFlat (fs : FS) (listing : PyStr → List PyStr) (args : Config) :
    Except String (List Int × List Int) :=
  match load_io_files fs listing args ["x".toList, "x_hat".toList] with
  | .error e => .error e
  | .ok [] => .error "ValueError: not enough values to unpack"
  | .ok (e0 :: erest) =>
    if (erest.foldl (fun acc e => min acc (rows e).length) (rows e0).length) = 2 then
      .ok (((e0 :: erest).map (fun e => flatten ((rows e).getD 0 (.scalar 0)))).flatten,
           ((e0 :: erest).map (fun e => flatten ((rows e).getD 1 (.scalar 0)))).flatten)
    else .error "ValueError: unpack mismatch"

/-- Sum of squared differences, the numerator of
`np.mean(np.power(np.array(y) - np.array(y_hat), 2))`. -/
def sumSqDiff (a b : List Int) : Int :=
  (List.zipWith (fun x y => (x - y) * (x - y)) a b).sum

/-- `evaluate_y_reconstruction(args)` (benchmarks.py:137-147), as the
triple of reported metrics: mean squared error over the paired values,
then `np.max(y)` and `np.min(y)`. -/
def evaluate_y_reconstruction (fs : FS) (listing : PyStr → List PyStr)
    (args : Config) : Except String (Rat × Int × Int) :=
  match yFlat fs listing args with
  | .error e => .error e
  | .ok (ys, yhs) =>
    if ys.length = yhs.length then
      match maxList ys, minList ys with
      | some mx, some mn =>
        .ok (((sumSqDiff ys yhs : Int) : Rat) / (ys.length : Rat), mx, mn)
      | _, _ => .error "ValueError: zero-size array to reduction operation"
    else .error "ValueError: operands could not be broadcast together"

/-- `play(args)` (benchmarks.py:82-86): the body is `pass`, no effects. -/
def play (args : Config) : List String := []

/-- The other five task routines, opaque to this development: each maps the
configuration to its observable effect trace. -/
structure Impls where
  bypass_dna : Config → List String
  quantization_tables : Config → List String
  quantization : Config → List String
  evaluate_y_reconstruction : Config → List String
  study_output_analysis : Config → List String

/-- The allow-list `tasks` (benchmarks.py:193). -/
def tasks : List String :=
  ["bypass_dna", "quantization_tables", "quantization",
   "evaluate_y_reconstruction", "play", "study_output_analysis"]

/-- `globals()[task]` restricted to the module functions named in the
allow-list. -/
def lookupTask (impls : Impls) : String → Option (Config → List String)
  | "bypass_dna" => some impls.bypass_dna
  | "quantization_tables" => some impls.quantization_tables
  | "quantization" => some impls.quantization
  | "evaluate_y_reconstruction" => some impls.evaluate_y_reconstruction
  | "play" => some play
  | "study_output_analysis" => some impls.study_output_analysis
  | _ => none

/-- `main(cfg)` dispatch (benchmarks.py:188-197): reject a task name
outside the allow-list, otherwise invoke the looked-up routine once; the
result records the invocations performed with their effect traces. -/
def mainDispatch (impls : Impls) (args : Config) :
    Except String (List (String × List String)) :=
  if args.task ∈ tasks then
    match lookupTask impls args.task with
    | some r => .ok [(args.task, r args)]
    | none => .error "KeyError"
  else .error ("Task " ++ args.task ++ " not supported")

/-! ### Concrete fixtures used by witnesses and counterexamples -/

/-- The scenario listing of directory `x/`: files `a.npy`, `b.npy`, `c.npy`. -/
def xDir : List PyStr := ["x/a.npy".toList, "x/b.npy".toList, "x/c.npy".toList]

/-- The scenario listing of directory `y/`: files `a.npy`, `b.npy`. -/
def yDir : List PyStr := ["y/a.npy".toList, "y/b.npy".toList]

/-- The scenario listing of directory `x_hat/`: files `a.npy`, `b.npy`. -/
def xhatDir : List PyStr := ["x_hat/a.npy".toList, "x_hat/b.npy".toList]

/-- Two listings whose first elements have no dot in their basename, so the
extension inferred for the first listing swallows a path separator. -/
def cexDirs : List (List PyStr) :=
  [["d.x/aaa".toList, "d.x/bbb".toList], ["q/bbb.z".toList]]

/-- A filesystem where every numeric file decodes to the scalar 0. -/
def fs0 : FS := ⟨fun _ => .scalar 0, fun _ => .scalar 0⟩

/-- A filesystem where every numeric file decodes to the one-element vector
`[5]` (shape `(1,)`, a singleton axis). -/
def fs1 : FS := ⟨fun _ => .arr [.scalar 5], fun _ => .scalar 0⟩

/-- A filesystem where `dy/a.npy` decodes to 0 and every other numeric file
to 5. -/
def fsE : FS :=
  ⟨fun p => if p = "dy/a.npy".toList then .scalar 0 else .scalar 5,
   fun _ => .scalar 0⟩

/-- Directory listings for the `evaluate_y_reconstruction` fixtures. -/
def listE : PyStr → List PyStr := fun d =>
  if d = "dy".toList then ["dy/a.npy".toList]
  else if d = "dyh".toList then ["dyh/a.npy".toList]
  else []

/-- Configuration with roles `y`, `y_hat`, `x`. -/
def cfgE : Config :=
  ⟨[("y".toList, "dy".toList), ("y_hat".toList, "dyh".toList),
    ("x".toList, "dx".toList)], "evaluate_y_reconstruction"⟩

/-- Configuration with roles `y` and `x_hat`. -/
def cfg9 : Config :=
  ⟨[("y".toList, "dy".toList), ("x_hat".toList, "dxh".toList)], "play"⟩

/-- A minimal configuration value. -/
def cfg0 : Config := ⟨[], "play"⟩

/-- Task implementations with empty effect traces. -/
def impls0 : Impls :=
  ⟨fun _ => [], fun _ => [], fun _ => [], fun _ => [], fun _ => []⟩

/-! ### String-splitting lemmas -/

theorem mem_takeWhile_ne {c a : Char} {s : List Char}
    (h : a ∈ s.takeWhile (fun x => x ≠ c)) : a ≠ c := by
  have := List.mem_takeWhile_imp h
  simpa using this

theorem mem_afterLastSep_ne {c a : Char} {s : PyStr}
    (h : a ∈ afterLastSep c s) : a ≠ c := by
  unfold afterLastSep at h
  rw [List.mem_reverse] at h
  exact mem_takeWhile_ne h

theorem takeWhile_append_all {p : Char → Bool} {a t : List Char}
    (h : ∀ x ∈ a, p x = true) : (a ++ t).takeWhile p = a ++ t.takeWhile p := by
  induction a with
  | nil => simp
  | cons x xs ih =>
    have hx : p x = true := h x (List.mem_cons_self x xs)
    simp only [List.cons_append, List.takeWhile_cons, hx, if_true]
    rw [ih (fun y hy => h y (List.mem_cons_of_mem x hy))]

theorem takeWhile_append_stop {p : Char → Bool} {a t : List Char} {y : Char}
    (h : ∀ x ∈ a, p x = true) (hy : p y = false) :
    (a ++ y :: t).takeWhile p = a := by
  rw [takeWhile_append_all h, List.takeWhile_cons, hy]
  simp

theorem dropWhile_append_stop {p : Char → Bool} {a t : List Char} {y : Char}
    (h : ∀ x ∈ a, p x = true) (hy : p y = false) :
    (a ++ y :: t).dropWhile p = y :: t := by
  induction a with
  | nil => simp [List.dropWhile_cons, hy]
  | cons x xs ih =>
    have hx : p x = true := h x (List.mem_cons_self x xs)
    simp only [List.cons_append, List.dropWhile_cons, hx, if_true]
    exact ih (fun z hz => h z (List.mem_cons_of_mem x hz))

theorem takeWhile_append_of_break {p : Char → Bool} {a t : List Char}
    (h : ∃ x ∈ a, p x = false) : (a ++ t).takeWhile p = a.takeWhile p := by
  induction a with
  | nil => rcases h with ⟨x, hx, _⟩; cases hx
  | cons x xs ih =>
    rcases h with ⟨z, hz, hpz⟩
    by_cases hx : p x = true
    · have hzxs : z ∈ xs := by
        rcases List.mem_cons.mp hz with h1 | h1
        · subst h1; rw [hx] at hpz; cases hpz
        · exact h1
      simp only [List.cons_append, List.takeWhile_cons, hx, if_true]
      rw [ih ⟨z, hzxs, hpz⟩]
    · have hx' : p x = false := by
        cases hpx : p x
        · rfl
        · exact absurd hpx hx
      simp [List.takeWhile_cons, hx']

theorem mem_of_mem_dropWhile {p : Char → Bool} {a : Char} :
    ∀ {l : List Char}, a ∈ l.dropWhile p → a ∈ l := by
  intro l
  induction l with
  | nil => simp
  | cons x xs ih =>
    rw [List.dropWhile_cons]
    split
    · intro h; exact List.mem_cons_of_mem x (ih h)
    · exact fun h => h

theorem mem_of_mem_takeWhile {p : Char → Bool} {a : Char} :
    ∀ {l : List Char}, a ∈ l.takeWhile p → a ∈ l := by
  intro l
  induction l with
  | nil => simp
  | cons x xs ih =>
    rw [List.takeWhile_cons]
    split
    · intro h
      rcases List.mem_cons.mp h with h1 | h1
      · exact h1 ▸ List.mem_cons_self x xs
      · exact List.mem_cons_of_mem x (ih h1)
    · intro h; cases h

theorem afterLastSep_concat (c : Char) (p m : PyStr) (h : c ∉ m) :
    afterLastSep c (p ++ c :: m) = m := by
  unfold afterLastSep
  have hrev : (p ++ c :: m).reverse = m.reverse ++ c :: p.reverse := by
    simp
  rw [hrev, takeWhile_append_stop ?_ ?_, List.reverse_reverse]
  · intro x hx
    have : x ≠ c := fun hxc => h (hxc ▸ List.mem_reverse.mp hx)
    simpa using this
  · simp

theorem beforeLastSep_concat (c : Char) (p m : PyStr) (h : c ∉ m) :
    beforeLastSep c (p ++ c :: m) = p := by
  unfold beforeLastSep
  have hrev : (p ++ c :: m).reverse = m.reverse ++ c :: p.reverse := by
    simp
  rw [hrev, dropWhile_append_stop ?_ ?_]
  · simp
  · intro x hx
    have : x ≠ c := fun hxc => h (hxc ▸ List.mem_reverse.mp hx)
    simpa using this
  · simp

theorem mem_of_mem_beforeLastSep {c a : Char} {s : PyStr}
    (h : a ∈ beforeLastSep c s) : a ∈ s := by
  unfold beforeLastSep at h
  rw [List.mem_reverse] at h
  have h2 := List.mem_of_mem_drop h
  exact List.mem_reverse.mp (mem_of_mem_dropWhile h2)

theorem ext_not_dot (q : PyStr) : '.' ∉ afterLastSep '.' q :=
  fun h => (mem_afterLastSep_ne h) rfl

theorem name_not_sep (q : PyStr) : '/' ∉ extract_name q := by
  unfold extract_name
  split
  · intro h
    exact (mem_afterLastSep_ne (mem_of_mem_beforeLastSep h)) rfl
  · intro h
    exact (mem_afterLastSep_ne h) rfl

theorem ext_not_sep {q : PyStr} (h : '.' ∈ afterLastSep '/' q) :
    '/' ∉ afterLastSep '.' q := by
  intro hmem
  have hsplit := List.takeWhile_append_dropWhile
    (p := fun a => a ≠ '/') (l := q.reverse)
  have hdotrev : '.' ∈ q.reverse.takeWhile (fun a => a ≠ '/') := by
    unfold afterLastSep at h
    exact List.mem_reverse.mp h
  have hbreak :
      (q.reverse.takeWhile (fun a => a ≠ '/') ++
        q.reverse.dropWhile (fun a => a ≠ '/')).takeWhile (fun a => a ≠ '.') =
      (q.reverse.takeWhile (fun a => a ≠ '/')).takeWhile (fun a => a ≠ '.') := by
    apply takeWhile_append_of_break
    exact ⟨'.', hdotrev, by simp⟩
  unfold afterLastSep at hmem
  rw [List.mem_reverse] at hmem
  rw [← hsplit, hbreak] at hmem
  have h1 : '/' ∈ q.reverse.takeWhile (fun a => a ≠ '/') :=
    mem_of_mem_takeWhile hmem
  have := List.mem_takeWhile_imp h1
  simp at this

theorem extract_name_concat {n e : PyStr} (p : PyStr) (hn : '/' ∉ n)
    (he : '/' ∉ e) (hd : '.' ∉ e) :
    extract_name (p ++ '/' :: (n ++ '.' :: e)) = n := by
  have hm : '/' ∉ (n ++ '.' :: e) := by
    intro hmem
    rcases List.mem_append.mp hmem with h1 | h1
    · exact hn h1
    · rcases List.mem_cons.mp h1 with h2 | h2
      · cases h2
      · exact he h2
  unfold extract_name
  rw [afterLastSep_concat '/' p _ hm]
  have hdot : '.' ∈ (n ++ '.' :: e) := by simp
  rw [if_pos hdot]
  exact beforeLastSep_concat '.' n e hd

/-! ### Alignment lemmas -/

theorem mem_commonNames {d0 : List PyStr} {rest : List (List PyStr)} {n : PyStr} :
    n ∈ commonNames d0 rest ↔
      (n ∈ d0.map extract_name ∧ ∀ d ∈ rest, n ∈ d.map extract_name) := by
  unfold commonNames
  rw [List.mem_filter, List.mem_dedup]
  constructor
  · rintro ⟨h1, h2⟩
    refine ⟨h1, ?_⟩
    intro d hd
    have := (List.all_eq_true.mp h2) d hd
    exact of_decide_eq_true this
  · rintro ⟨h1, h2⟩
    refine ⟨h1, ?_⟩
    exact List.all_eq_true.mpr (fun d hd => decide_eq_true (h2 d hd))

theorem commonNames_nodup (d0 : List PyStr) (rest : List (List PyStr)) :
    (commonNames d0 rest).Nodup :=
  (List.nodup_dedup _).filter _

theorem mem_foldl_inter :
    ∀ (rs : List (List PyStr)) (init : Finset PyStr) (x : PyStr),
      x ∈ rs.foldl (fun acc d => acc ∩ (d.map extract_name).toFinset) init ↔
        (x ∈ init ∧ ∀ d ∈ rs, x ∈ d.map extract_name) := by
  intro rs
  induction rs with
  | nil => intro init x; simp
  | cons d ds ih =>
    intro init x
    rw [List.foldl_cons, ih]
    simp only [Finset.mem_inter, List.mem_toFinset, List.mem_cons]
    constructor
    · rintro ⟨⟨h1, h2⟩, h3⟩
      exact ⟨h1, fun d' hd' => hd'.elim (fun he => he ▸ h2) (h3 d')⟩
    · rintro ⟨h1, h2⟩
      exact ⟨⟨h1, h2 d (Or.inl rfl)⟩, fun d' hd' => h2 d' (Or.inr hd')⟩

theorem mem_interNames {d0 : List PyStr} {rest : List (List PyStr)} {x : PyStr} :
    x ∈ interNames d0 rest ↔
      (x ∈ d0.map extract_name ∧ ∀ d ∈ rest, x ∈ d.map extract_name) := by
  unfold interNames
  rw [mem_foldl_inter]
  simp

theorem commonNames_toFinset (d0 : List PyStr) (rest : List (List PyStr)) :
    (commonNames d0 rest).toFinset = interNames d0 rest := by
  ext x
  rw [List.mem_toFinset, mem_commonNames, mem_interNames]

theorem commonNames_length (d0 : List PyStr) (rest : List (List PyStr)) :
    (commonNames d0 rest).length = (interNames d0 rest).card := by
  rw [← commonNames_toFinset, List.toFinset_card_of_nodup (commonNames_nodup d0 rest)]

theorem align_files_ok {d0 : List PyStr} {rest : List (List PyStr)}
    (h : ∀ d ∈ d0 :: rest, d ≠ []) :
    align_files (d0 :: rest) =
      .ok ((d0 :: rest).map (fun d => (commonNames d0 rest).map (reconPath d))) := by
  unfold align_files
  rw [if_pos]
  rw [List.all_eq_true]
  intro d hd
  have := h d hd
  simp [List.isEmpty_iff, this]

theorem commonNames_no_sep {d0 : List PyStr} {rest : List (List PyStr)} {n : PyStr}
    (h : n ∈ commonNames d0 rest) : '/' ∉ n := by
  rcases (mem_commonNames.mp h).1 with h1
  rcases List.mem_map.mp h1 with ⟨q, _, hq⟩
  exact hq ▸ name_not_sep q

theorem headD_mem {d : List PyStr} (h : d ≠ []) : d.headD [] ∈ d := by
  cases d with
  | nil => exact absurd rfl h
  | cons a l => exact List.mem_cons_self a l

theorem extract_name_reconPath {d : List PyStr}
    (hwf : '.' ∈ afterLastSep '/' (d.headD [])) {n : PyStr} (hn : '/' ∉ n) :
    extract_name (reconPath d n) = n := by
  unfold reconPath
  exact extract_name_concat _ hn (ext_not_sep hwf) (ext_not_dot _)

/-! ### Claims C1 and C2: alignment intersection and position properties -/

/-- Claim C1, amended: restricted to calls supplying at least one listing in
which every path has a dot in its basename (i.e. carries an extension),
`align_files` returns one list per listing, all of length equal to the
cardinality of the intersection of the `extract_name` images, and the
extracted name of every returned path belongs to that intersection. -/
theorem align_files_intersection
    (d0 : List PyStr) (rest : List (List PyStr))
    (hne : ∀ d ∈ d0 :: rest, d ≠ [])
    (hwf : ∀ d ∈ d0 :: rest, ∀ p ∈ d, '.' ∈ afterLastSep '/' p) :
    ∃ out, align_files (d0 :: rest) = .ok out ∧
      out.length = (d0 :: rest).length ∧
      ∀ l ∈ out, l.length = (interNames d0 rest).card ∧
        ∀ p ∈ l, extract_name p ∈ interNames d0 rest := by
  refine ⟨_, align_files_ok hne, ?_, ?_⟩
  · simp
  · intro l hl
    rcases List.mem_map.mp hl with ⟨d, hd, rfl⟩
    constructor
    · rw [List.length_map, commonNames_length]
    · intro p hp
      rcases List.mem_map.mp hp with ⟨n, hn, rfl⟩
      have hdne := hne d hd
      have hwfd : '.' ∈ afterLastSep '/' (d.headD []) :=
        hwf d hd (d.headD []) (headD_mem hdne)
      rw [extract_name_reconPath hwfd (commonNames_no_sep hn)]
      rw [← commonNames_toFinset, List.mem_toFinset]
      exact hn

/-- Witness for C1 at the scenario input: directories `x/`, `y/`, `x_hat/`
with common names `a`, `b` and an extra `c` only in `x/`; the intersection
has exactly the two names `a` and `b`. -/
theorem align_files_intersection_witness :
    (∃ out, align_files (xDir :: [yDir, xhatDir]) = .ok out ∧
      out.length = (xDir :: [yDir, xhatDir]).length ∧
      ∀ l ∈ out, l.length = (interNames xDir [yDir, xhatDir]).card ∧
        ∀ p ∈ l, extract_name p ∈ interNames xDir [yDir, xhatDir]) ∧
    (interNames xDir [yDir, xhatDir]).card = 2 ∧
    interNames xDir [yDir, xhatDir] = {"a".toList, "b".toList} :=
  ⟨align_files_intersection xDir [yDir, xhatDir] (by decide) (by decide),
   by decide, by decide⟩

/-- Counterexample to C1 as stated: with listings
`["d.x/aaa", "d.x/bbb"]` and `["q/bbb.z"]` (first basenames without a dot),
the returned path `d.x/bbb.x/aaa` has extracted name `aaa`, which is not in
the intersection of the `extract_name` images. -/
theorem align_files_intersection_cex :
    align_files cexDirs =
      .ok [["d.x/bbb.x/aaa".toList], ["q/bbb.z".toList]] ∧
    "d.x/bbb.x/aaa".toList ∈
      (["d.x/bbb.x/aaa".toList] : List PyStr) ∧
    extract_name "d.x/bbb.x/aaa".toList ∉
      interNames ["d.x/aaa".toList, "d.x/bbb".toList] [["q/bbb.z".toList]] := by
  refine ⟨by rfl, by decide, by decide⟩

/-- Claim C2, amended: under the same extension well-formedness restriction
as C1, the output lists are position-aligned: entries at equal positions
have equal extracted names across all role indices. -/
theorem align_files_position
    (d0 : List PyStr) (rest : List (List PyStr))
    (hne : ∀ d ∈ d0 :: rest, d ≠ [])
    (hwf : ∀ d ∈ d0 :: rest, ∀ p ∈ d, '.' ∈ afterLastSep '/' p) :
    ∃ out, align_files (d0 :: rest) = .ok out ∧
      ∀ (i j k : Nat) (hi : i < out.length) (hj : j < out.length)
        (hki : k < (out.get ⟨i, hi⟩).length)
        (hkj : k < (out.get ⟨j, hj⟩).length),
        extract_name ((out.get ⟨i, hi⟩).get ⟨k, hki⟩) =
          extract_name ((out.get ⟨j, hj⟩).get ⟨k, hkj⟩) := by
  refine ⟨_, align_files_ok hne, ?_⟩
  have key : ∀ (i k : Nat)
      (hi : i < ((d0 :: rest).map
        (fun d => (commonNames d0 rest).map (reconPath d))).length)
      (hki : k < (((d0 :: rest).map
        (fun d => (commonNames d0 rest).map (reconPath d))).get ⟨i, hi⟩).length),
      ∃ hk : k < (commonNames d0 rest).length,
      extract_name ((((d0 :: rest).map
        (fun d => (commonNames d0 rest).map (reconPath d))).get ⟨i, hi⟩).get
          ⟨k, hki⟩) = (commonNames d0 rest).get ⟨k, hk⟩ := by
    intro i k hi hki
    have hi' : i < (d0 :: rest).length := by simpa using hi
    have hk : k < (commonNames d0 rest).length := by
      have := hki
      simp only [List.get_eq_getElem, List.getElem_map, List.length_map] at this
      exact this
    refine ⟨hk, ?_⟩
    simp only [List.get_eq_getElem, List.getElem_map]
    have hd : (d0 :: rest)[i] ∈ (d0 :: rest) := List.getElem_mem hi'
    have hdne := hne _ hd
    have hwfd : '.' ∈ afterLastSep '/' (((d0 :: rest)[i]).headD []) :=
      hwf _ hd _ (headD_mem hdne)
    have hnmem : (commonNames d0 rest)[k] ∈ commonNames d0 rest :=
      List.getElem_mem hk
    rw [extract_name_reconPath hwfd (commonNames_no_sep hnmem)]
  intro i j k hi hj hki hkj
  rcases key i k hi hki with ⟨hk1, e1⟩
  rcases key j k hj hkj with ⟨hk2, e2⟩
  rw [e1, e2]

/-- Witness for C2 at the scenario input. -/
theorem align_files_position_witness :
    ∃ out, align_files (xDir :: [yDir, xhatDir]) = .ok out ∧
      ∀ (i j k : Nat) (hi : i < out.length) (hj : j < out.length)
        (hki : k < (out.get ⟨i, hi⟩).length)
        (hkj : k < (out.get ⟨j, hj⟩).length),
        extract_name ((out.get ⟨i, hi⟩).get ⟨k, hki⟩) =
          extract_name ((out.get ⟨j, hj⟩).get ⟨k, hkj⟩) :=
  align_files_position xDir [yDir, xhatDir] (by decide) (by decide)

/-- Counterexample to C2 as stated: on `cexDirs` the two output lists carry
extracted names `aaa` and `bbb` at position 0, so the outputs are not
position-aligned. -/
theorem align_files_position_cex :
    align_files cexDirs =
      .ok [["d.x/bbb.x/aaa".toList], ["q/bbb.z".toList]] ∧
    extract_name "d.x/bbb.x/aaa".toList ≠ extract_name "q/bbb.z".toList := by
  refine ⟨by rfl, by decide⟩

/-! ### Claim C7: emptiness precondition of align_files -/

/-- Claim C7, amended: the assertion error is raised if and only if some
input listing is empty, and when at least one listing is supplied and every
listing is non-empty, `align_files` returns normally; the call with zero
listings fails with a different error despite having no empty listing. -/
theorem align_files_error_iff (dirs : List (List PyStr)) :
    ((align_files dirs =
        .error "AssertionError: Need at least 1 element in each directory") ↔
      ∃ d ∈ dirs, d = []) ∧
    (dirs ≠ [] → (∀ d ∈ dirs, d ≠ []) → ∃ out, align_files dirs = .ok out) := by
  by_cases hall : dirs.all (fun d => !d.isEmpty) = true
  · have hnone : ¬ ∃ d ∈ dirs, d = [] := by
      rintro ⟨d, hd, rfl⟩
      have := List.all_eq_true.mp hall _ hd
      simp at this
    cases dirs with
    | nil =>
      refine ⟨?_, ?_⟩
      · constructor
        · intro h
          unfold align_files at h
          rw [if_pos hall] at h
          exact absurd (Except.error.inj h) (by decide)
        · rintro ⟨d, hd, _⟩
          cases hd
      · intro hne _
        exact absurd rfl hne
    | cons d0 rest =>
      refine ⟨?_, ?_⟩
      · constructor
        · intro h
          unfold align_files at h
          rw [if_pos hall] at h
          exact Except.noConfusion h
        · intro hex
          exact absurd hex hnone
      · intro _ hne2
        exact ⟨_, align_files_ok hne2⟩
  · have hex : ∃ d ∈ dirs, d = [] := by
      by_contra hno
      apply hall
      rw [List.all_eq_true]
      intro d hd
      have hdne : d ≠ [] := fun he => hno ⟨d, hd, he⟩
      simp [List.isEmpty_iff, hdne]
    refine ⟨?_, ?_⟩
    · unfold align_files
      rw [if_neg hall]
      exact ⟨fun _ => hex, fun _ => rfl⟩
    · intro _ hne
      exfalso
      rcases hex with ⟨d, hd, rfl⟩
      exact hne _ hd rfl

/-- Witness for C7: one non-empty listing makes `align_files` return
normally. -/
theorem align_files_error_iff_witness :
    ∃ out, align_files [["x/a.npy".toList]] = .ok out :=
  (align_files_error_iff [["x/a.npy".toList]]).2 (by decide) (by decide)

/-- Counterexample to C7 as stated: the call with zero listings has no
empty input listing, yet `align_files` does not return normally (it raises
a `TypeError`, not the precondition assertion). -/
theorem align_files_nullary_cex :
    align_files ([] : List (List PyStr)) =
      .error "TypeError: descriptor intersection of set object needs an argument" ∧
    (align_files ([] : List (List PyStr))).isOk = false := by
  refine ⟨by rfl, by rfl⟩

/-! ### Claims C4 and C5: format dispatch of load_file -/

/-- Claim C4: `load_file` dispatches on the extension; the `npy` and `ply`
branches return the decoded record of their distinct decoders, but the
`pkl` branch fails at run time with a `NameError` because the module never
imports `pickle` — the code contradicts the intended generic-object decode. -/
theorem load_file_dispatch (fs : FS) :
    load_file fs "a.npy".toList = .ok (fs.npyData "a.npy".toList) ∧
    load_file fs "a.ply".toList = .ok (fs.plyPoints "a.ply".toList) ∧
    load_file fs "foo.pkl".toList =
      .error "NameError: name pickle is not defined" :=
  ⟨rfl, rfl, rfl⟩

/-- Claim C5: for every path whose extension is none of `npy`, `pkl`,
`ply`, `load_file` fails with the unsupported-format error and never
returns a value. -/
theorem load_file_unknown_ext (fs : FS) (fname : PyStr)
    (h1 : extract_ext fname ≠ "npy".toList)
    (h2 : extract_ext fname ≠ "pkl".toList)
    (h3 : extract_ext fname ≠ "ply".toList) :
    load_file fs fname =
      .error ("Unknown extension " ++ String.mk (extract_ext fname)) := by
  unfold load_file
  rw [if_neg h1, if_neg h2, if_neg h3]

/-- Witness for C5 at `foo.xyz`. -/
theorem load_file_unknown_ext_witness :
    load_file fs0 "foo.xyz".toList =
      .error ("Unknown extension " ++ String.mk (extract_ext "foo.xyz".toList)) :=
  load_file_unknown_ext fs0 "foo.xyz".toList (by decide) (by decide) (by decide)

/-! ### Claim C6: task allow-list dispatch -/

/-- Claim C6: a task name outside the allow-list is rejected with an
unknown-task error and no routine is invoked; a name in the allow-list
invokes exactly the corresponding routine once with the resolved
configuration; dispatching `play` returns with an empty effect trace. -/
theorem mainDispatch_allowlist (impls : Impls) (args : Config) :
    (args.task ∉ tasks →
      mainDispatch impls args =
        .error ("Task " ++ args.task ++ " not supported")) ∧
    (args.task ∈ tasks → ∃ r, lookupTask impls args.task = some r ∧
      mainDispatch impls args = .ok [(args.task, r args)]) ∧
    (args.task = "play" → mainDispatch impls args = .ok [("play", [])]) := by
  refine ⟨?_, ?_, ?_⟩
  · intro h
    unfold mainDispatch
    rw [if_neg h]
  · intro h
    have hr : ∃ r, lookupTask impls args.task = some r := by
      simp only [tasks, List.mem_cons, List.mem_singleton,
        List.not_mem_nil, or_false] at h
      rcases h with h | h | h | h | h | h
      · exact ⟨impls.bypass_dna, by rw [h]; rfl⟩
      · exact ⟨impls.quantization_tables, by rw [h]; rfl⟩
      · exact ⟨impls.quantization, by rw [h]; rfl⟩
      · exact ⟨impls.evaluate_y_reconstruction, by rw [h]; rfl⟩
      · exact ⟨play, by rw [h]; rfl⟩
      · exact ⟨impls.study_output_analysis, by rw [h]; rfl⟩
    rcases hr with ⟨r, hr⟩
    refine ⟨r, hr, ?_⟩
    unfold mainDispatch
    rw [if_pos h, hr]
  · intro h
    unfold mainDispatch
    rw [h]
    rfl

/-- Witness for C6: dispatching `play` succeeds with no side effect, and a
name outside the allow-list is rejected. -/
theorem mainDispatch_allowlist_witness :
    mainDispatch impls0 cfg0 = .ok [("play", [])] ∧
    mainDispatch impls0 ⟨[], "nonexistent_task"⟩ =
      .error ("Task " ++ "nonexistent_task" ++ " not supported") :=
  ⟨(mainDispatch_allowlist impls0 cfg0).2.2 rfl,
   (mainDispatch_allowlist impls0 ⟨[], "nonexistent_task"⟩).1 (by decide)⟩

/-! ### Claim C10: the loaders ignore their configuration argument -/

/-- Claim C10: `lazy_loader` and `loader` are independent of their second
argument: any two configurations produce identical outputs. -/
theorem loader_args_independent (fs : FS) (groups : List (List PyStr))
    (files : List PyStr) (a1 a2 : Config) :
    lazy_loader fs groups a1 = lazy_loader fs groups a2 ∧
    loader fs files a1 = loader fs files a2 :=
  ⟨rfl, rfl⟩

/-! ### Claim C3: lazy versus eager loading -/

theorem mapExcept_ok_iff {α β ε : Type} (f : α → Except ε β) :
    ∀ (l : List α) (out : List β),
      mapExcept f l = .ok out ↔ List.Forall₂ (fun a b => f a = .ok b) l out := by
  intro l
  induction l with
  | nil =>
    intro out
    constructor
    · intro h
      have h' := Except.ok.inj h
      subst h'
      exact List.Forall₂.nil
    · intro h
      cases h
      rfl
  | cons a l ih =>
    intro out
    constructor
    · intro h
      unfold mapExcept at h
      cases hfa : f a with
      | error e =>
        rw [hfa] at h
        cases hml : mapExcept f l with
        | error e2 => rw [hml] at h; simp at h
        | ok bs => rw [hml] at h; simp at h
      | ok b =>
        rw [hfa] at h
        cases hml : mapExcept f l with
        | error e2 => rw [hml] at h; simp at h
        | ok bs =>
          rw [hml] at h
          simp at h
          subst h
          exact List.Forall₂.cons hfa ((ih _).mp hml)
    · intro h
      rcases List.forall₂_cons_left_iff.mp h with ⟨b, bs, hab, htail, rfl⟩
      unfold mapExcept
      rw [hab, (ih bs).mpr htail]

theorem flatten_squeeze_aux (n : Nat) :
    (∀ a : NDArray, sizeOf a ≤ n → flatten (squeeze a) = flatten a) ∧
    (∀ l : List NDArray, sizeOf l ≤ n →
      flattenList (squeezeList l) = flattenList l) := by
  induction n with
  | zero =>
    constructor
    · intro a ha
      cases a <;> simp at ha
    · intro l hl
      cases l <;> simp at hl
  | succ n ih =>
    constructor
    · intro a ha
      match a with
      | .scalar v => simp [squeeze, flatten]
      | .arr [] => simp [squeeze, squeezeList, flatten, flattenList]
      | .arr [x] =>
        have hx : sizeOf x ≤ n := by
          simp only [NDArray.arr.sizeOf_spec, List.cons.sizeOf_spec,
            List.nil.sizeOf_spec] at ha
          omega
        calc flatten (squeeze (NDArray.arr [x]))
            = flatten (squeeze x) := by simp [squeeze]
          _ = flatten x := ih.1 x hx
          _ = flattenList [x] := by simp [flattenList]
          _ = flatten (NDArray.arr [x]) := by simp [flatten]
      | .arr (x :: y :: t) =>
        have hsz : sizeOf (x :: y :: t : List NDArray) ≤ n := by
          simp only [NDArray.arr.sizeOf_spec] at ha
          omega
        calc flatten (squeeze (NDArray.arr (x :: y :: t)))
            = flattenList (squeezeList (x :: y :: t)) := by
              simp [squeeze, flatten]
          _ = flattenList (x :: y :: t) := ih.2 _ hsz
          _ = flatten (NDArray.arr (x :: y :: t)) := by simp [flatten]
    · intro l hl
      match l with
      | [] => simp [squeezeList]
      | x :: xs =>
        have h1 : sizeOf x ≤ n := by
          simp only [List.cons.sizeOf_spec] at hl
          omega
        have h2 : sizeOf xs ≤ n := by
          simp only [List.cons.sizeOf_spec] at hl
          omega
        simp [squeezeList, flattenList, ih.1 x h1, ih.2 xs h2]

theorem flatten_squeeze (a : NDArray) : flatten (squeeze a) = flatten a :=
  (flatten_squeeze_aux (sizeOf a)).1 a (le_refl _)

theorem flattenList_eq_join (recs : List NDArray) :
    flattenList recs = (recs.map flatten).flatten := by
  induction recs with
  | nil => simp [flattenList]
  | cons x xs ih => simp [flattenList, ih]

/-- Claim C3, amended: materializing the lazy sequence yields, for each
aligned path group, `np.squeeze` of the array stacked from the records the
eager loader produces for that group; the flattened values agree in order, but the
records are not in general identical (singleton axes are removed). -/
theorem lazy_eager_equiv (fs : FS) (a1 a2 : Config)
    (groups : List (List PyStr)) (out : List NDArray)
    (h : lazy_loader fs groups a1 = .ok out) :
    List.Forall₂ (fun g e => ∃ recs, loader fs g a2 = .ok recs ∧
      e = squeeze (NDArray.arr recs) ∧
      flatten e = (recs.map flatten).flatten) groups out := by
  have h' := (mapExcept_ok_iff _ groups out).mp h
  refine h'.imp ?_
  intro g e hge
  cases hrec : mapExcept (load_file fs) g with
  | error e2 =>
    rw [hrec] at hge
    exact Except.noConfusion hge
  | ok recs =>
    rw [hrec] at hge
    have he : e = squeeze (NDArray.arr recs) := (Except.ok.inj hge).symm
    refine ⟨recs, hrec, he, ?_⟩
    rw [he, flatten_squeeze]
    simpa [flatten] using flattenList_eq_join recs

/-- Witness for C3: a single group with one `npy` file decoding to the
vector `[5]`; the lazy element is the squeezed scalar `5`. -/
theorem lazy_eager_equiv_witness :
    List.Forall₂ (fun g e => ∃ recs, loader fs1 g cfg0 = .ok recs ∧
      e = squeeze (NDArray.arr recs) ∧
      flatten e = (recs.map flatten).flatten)
      [["d/a.npy".toList]] [NDArray.scalar 5] :=
  lazy_eager_equiv fs1 cfg0 cfg0 [["d/a.npy".toList]] [NDArray.scalar 5] rfl

/-- Counterexample to C3 as stated: for the same single aligned group, the
lazy sequence yields the squeezed scalar `5` while the eager loader
produces the record `[5]`; the decoded records are not identical. -/
theorem lazy_eager_equiv_cex :
    lazy_loader fs1 [["d/a.npy".toList]] cfg0 = .ok [NDArray.scalar 5] ∧
    loader fs1 ["d/a.npy".toList] cfg0 =
      .ok [NDArray.arr [NDArray.scalar 5]] ∧
    NDArray.scalar 5 ≠ NDArray.arr [NDArray.scalar 5] := by
  refine ⟨rfl, rfl, fun h => NDArray.noConfusion h⟩

/-! ### Claim C9: orchestration of load_io_files -/

/-- Claim C9: `load_io_files` selects exactly the io roles whose labels are
not excepted, aligns their listings, and hands the lazy sequencer the
position-wise zipped groups (more than one role) or the singleton-reshaped
groups (exactly one role); the zipped groups are position-wise: group `k`
collects entry `k` of every aligned list. -/
theorem load_io_files_spec (fs : FS) (listing : PyStr → List PyStr)
    (args : Config) (exc : List PyStr) (files : List (List PyStr))
    (h : align_files (selectedListings listing args exc) = .ok files) :
    (∀ nd : PyStr × PyStr,
      nd ∈ args.io.filter (fun nd => !(decide (nd.1 ∈ exc))) ↔
        (nd ∈ args.io ∧ nd.1 ∉ exc)) ∧
    (1 < files.length →
      load_io_files fs listing args exc = lazy_loader fs (zipStar files) args) ∧
    (files.length = 1 →
      load_io_files fs listing args exc =
        lazy_loader fs (files.flatten.map (fun p => [p])) args) ∧
    (zipStar files).length = pyMinLen files ∧
    (∀ (k : Nat) (hk : k < (zipStar files).length),
      (zipStar files).get ⟨k, hk⟩ = files.map (fun l => l.getD k [])) := by
  refine ⟨?_, ?_, ?_, ?_, ?_⟩
  · intro nd
    rw [List.mem_filter]
    simp
  · intro hgt
    unfold load_io_files
    simp only [h]
    rw [if_pos hgt]
  · intro h1
    unfold load_io_files
    simp only [h]
    rw [if_neg (by omega)]
  · unfold zipStar
    simp
  · intro k hk
    unfold zipStar at hk ⊢
    simp only [List.get_eq_getElem, List.getElem_map, List.getElem_range]

/-- Witness for C9: a configuration with roles `y` and `x_hat`, the latter
excepted; one role remains, so the singleton-reshape branch is taken. -/
theorem load_io_files_spec_witness :
    load_io_files fs0 listE cfg9 ["x_hat".toList] =
      lazy_loader fs0 [["dy/a.npy".toList]] cfg9 :=
  (load_io_files_spec fs0 listE cfg9 ["x_hat".toList]
    [["dy/a.npy".toList]] (by rfl)).2.2.1 (by rfl)

/-! ### Claim C8: metrics reported by evaluate_y_reconstruction -/

theorem le_foldl_max : ∀ (r : List Int) (a : Int), a ≤ r.foldl max a := by
  intro r
  induction r with
  | nil => intro a; exact le_refl a
  | cons b r ih => intro a; exact le_trans (le_max_left a b) (ih (max a b))

theorem foldl_max_mem :
    ∀ (r : List Int) (a : Int), r.foldl max a = a ∨ r.foldl max a ∈ r := by
  intro r
  induction r with
  | nil => intro a; exact Or.inl rfl
  | cons b r ih =>
    intro a
    rcases ih (max a b) with h | h
    · rcases max_cases a b with ⟨he, _⟩ | ⟨he, _⟩
      · left; rw [List.foldl_cons, h, he]
      · right; rw [List.foldl_cons, h, he]; exact List.mem_cons_self b r
    · right; rw [List.foldl_cons]; exact List.mem_cons_of_mem b h

theorem foldl_max_ub : ∀ (r : List Int) (a v : Int), v ∈ r → v ≤ r.foldl max a := by
  intro r
  induction r with
  | nil => intro a v hv; cases hv
  | cons b r ih =>
    intro a v hv
    rcases List.mem_cons.mp hv with rfl | h
    · exact le_trans (le_max_right a v) (le_foldl_max r (max a v))
    · exact ih (max a b) v h

theorem maxList_spec {l : List Int} {m : Int} (h : maxList l = some m) :
    m ∈ l ∧ ∀ v ∈ l, v ≤ m := by
  cases l with
  | nil => cases h
  | cons a r =>
    have hm : m = r.foldl max a := (Option.some.inj h).symm
    subst hm
    constructor
    · rcases foldl_max_mem r a with h1 | h1
      · rw [h1]; exact List.mem_cons_self a r
      · exact List.mem_cons_of_mem a h1
    · intro v hv
      rcases List.mem_cons.mp hv with rfl | hv2
      · exact le_foldl_max r v
      · exact foldl_max_ub r a v hv2

theorem foldl_min_le : ∀ (r : List Int) (a : Int), r.foldl min a ≤ a := by
  intro r
  induction r with
  | nil => intro a; exact le_refl a
  | cons b r ih => intro a; exact le_trans (ih (min a b)) (min_le_left a b)

theorem foldl_min_mem :
    ∀ (r : List Int) (a : Int), r.foldl min a = a ∨ r.foldl min a ∈ r := by
  intro r
  induction r with
  | nil => intro a; exact Or.inl rfl
  | cons b r ih =>
    intro a
    rcases ih (min a b) with h | h
    · rcases min_cases a b with ⟨he, _⟩ | ⟨he, _⟩
      · left; rw [List.foldl_cons, h, he]
      · right; rw [List.foldl_cons, h, he]; exact List.mem_cons_self b r
    · right; rw [List.foldl_cons]; exact List.mem_cons_of_mem b h

theorem foldl_min_lb : ∀ (r : List Int) (a v : Int), v ∈ r → r.foldl min a ≤ v := by
  intro r
  induction r with
  | nil => intro a v hv; cases hv
  | cons b r ih =>
    intro a v hv
    rcases List.mem_cons.mp hv with rfl | h
    · exact le_trans (foldl_min_le r (min a v)) (min_le_right a v)
    · exact ih (min a b) v h

theorem minList_spec {l : List Int} {m : Int} (h : minList l = some m) :
    m ∈ l ∧ ∀ v ∈ l, m ≤ v := by
  cases l with
  | nil => cases h
  | cons a r =>
    have hm : m = r.foldl min a := (Option.some.inj h).symm
    subst hm
    constructor
    · rcases foldl_min_mem r a with h1 | h1
      · rw [h1]; exact List.mem_cons_self a r
      · exact List.mem_cons_of_mem a h1
    · intro v hv
      rcases List.mem_cons.mp hv with rfl | hv2
      · exact foldl_min_le r v
      · exact foldl_min_lb r a v hv2

/-- Claim C8, amended: on success, `evaluate_y_reconstruction` reports the
mean squared error over the paired `y`/`y_hat` values, and the maximum and
minimum over the `y` records only — not over the full paired collection. -/
theorem evaluate_y_extrema (fs : FS) (listing : PyStr → List PyStr)
    (args : Config) (mse : Rat) (mx mn : Int)
    (h : evaluate_y_reconstruction fs listing args = .ok (mse, mx, mn)) :
    ∃ ys yhs : List Int, yFlat fs listing args = .ok (ys, yhs) ∧
      ys.length = yhs.length ∧
      mse = ((sumSqDiff ys yhs : Int) : Rat) / (ys.length : Rat) ∧
      mx ∈ ys ∧ (∀ v ∈ ys, v ≤ mx) ∧ mn ∈ ys ∧ (∀ v ∈ ys, mn ≤ v) := by
  unfold evaluate_y_reconstruction at h
  split at h
  · exact Except.noConfusion h
  · next ys yhs heq =>
    split at h
    · next hlen =>
      split at h
      · next mx' mn' hmax hmin =>
        have h' := Except.ok.inj h
        rw [Prod.mk.injEq, Prod.mk.injEq] at h'
        obtain ⟨he1, he2, he3⟩ := h'
        subst he1
        subst he2
        subst he3
        obtain ⟨hmx1, hmx2⟩ := maxList_spec hmax
        obtain ⟨hmn1, hmn2⟩ := minList_spec hmin
        exact ⟨ys, yhs, heq, hlen, rfl, hmx1, hmx2, hmn1, hmn2⟩
      · next => exact Except.noConfusion h
    · next hlen => exact Except.noConfusion h

/-- Witness for C8 at the concrete configuration: one `y` value 0 and one
`y_hat` value 5; the report is `(25, 0, 0)`. -/
theorem evaluate_y_extrema_witness :
    ∃ ys yhs : List Int, yFlat fsE listE cfgE = .ok (ys, yhs) ∧
      ys.length = yhs.length ∧
      (25 : Rat) = ((sumSqDiff ys yhs : Int) : Rat) / (ys.length : Rat) ∧
      (0 : Int) ∈ ys ∧ (∀ v ∈ ys, v ≤ (0 : Int)) ∧
      (0 : Int) ∈ ys ∧ (∀ v ∈ ys, (0 : Int) ≤ v) :=
  evaluate_y_extrema fsE listE cfgE 25 0 0 (by
    have h0 : evaluate_y_reconstruction fsE listE cfgE =
        .ok (((sumSqDiff [0] [5] : Int) : Rat) /
          ((([0] : List Int).length : Nat) : Rat), 0, 0) := rfl
    rw [h0]
    norm_num [sumSqDiff])

/-- Counterexample to C8 as stated: the reported maximum is 0, the maximum
over the `y` records alone, while the maximum over the full paired
collection (both `y` and `y_hat` values) is 5. -/
theorem evaluate_y_extrema_cex :
    evaluate_y_reconstruction fsE listE cfgE = .ok (25, 0, 0) ∧
    yFlat fsE listE cfgE = .ok ([0], [5]) ∧
    maxList (([0] : List Int) ++ [5]) = some 5 ∧ (5 : Int) ≠ 0 := by
  refine ⟨?_, rfl, rfl, by decide⟩
  have h0 : evaluate_y_reconstruction fsE listE cfgE =
      .ok (((sumSqDiff [0] [5] : Int) : Rat) /
        ((([0] : List Int).length : Nat) : Rat), 0, 0) := rfl
  rw [h0]
  norm_num [sumSqDiff]
